import Mathlib

/-!
Verification development for the star-detection core of the
Live-Skyboxes repository (`Star_Detection_and_Data_Generation/starDetection.py`).

The Python code is shallowly embedded: uint8 pixel values become `ℕ`
with an explicit `≤ 255` bound, float pixel arithmetic becomes exact `ℚ`
arithmetic (the comparisons settled here are far from any float rounding
boundary), and the trigonometric projection code becomes functions on `ℝ`.
-/

set_option maxHeartbeats 1000000

namespace StarDetection

/-- Pixel index of a grid image (row, column). -/
abbrev Pix := ℕ × ℕ

/-- Noise-scale floor of one pixel, `starDetection.py` line 107:
`sigma = np.maximum(absResidual.astype(np.float32), 1.0)`. -/
def sigmaOf (absRes : ℕ) : ℚ := max (absRes : ℚ) 1

/-- Per-pixel z-score, line 108:
`z = (gray.astype(np.float32) - background.astype(np.float32)) / sigma`. -/
def zScore (g b absRes : ℕ) : ℚ := ((g : ℚ) - (b : ℚ)) / sigmaOf absRes

/-- z-score map of an image. `gray` is the grayscale frame, `background`
the median-blurred frame (line 104) and `absRes` the box-blurred absolute
residual (line 106); all three are uint8 images, recorded by the theorems
as a `≤ 255` bound on every pixel. -/
def zMap (gray background absRes : Pix → ℕ) (p : Pix) : ℚ :=
  zScore (gray p) (background p) (absRes p)

/-- SNR mask as built at line 111: the pixels whose z-score exceeds the
SNR threshold (`snrMask = (z > float(snrThreshold))`). -/
def snrMaskRaw (gray background absRes : Pix → ℕ) (thr : ℚ) (p : Pix) : Bool :=
  decide (thr < zMap gray background absRes p)

/-- Very-high-z mask of line 136: `veryHigh = (z > (snrThreshold * 2.0))`. -/
def veryHighMask (gray background absRes : Pix → ℕ) (thr : ℚ) (p : Pix) : Bool :=
  decide (thr * 2 < zMap gray background absRes p)

/-- Halo suppression step, lines 137-139:
`keep = bitwise_and(halo, veryHigh)`,
`snrMask = bitwise_and(snrMask, bitwise_not(halo))`,
`snrMask = bitwise_or(snrMask, keep)`.
`snrMask` here is the (possibly morphologically cleaned) mask the code
holds just before suppression; the theorem below quantifies over it. -/
def suppressHaloStep (snrMask halo : Pix → Bool) (gray background absRes : Pix → ℕ)
    (thr : ℚ) (p : Pix) : Bool :=
  (snrMask p && !(halo p)) || (halo p && veryHighMask gray background absRes thr p)

/-- C6: for every grayscale image and background image with uint8 pixel
values, the noise-scale divisor is at least 1 (hence nonzero, so the
division defining the z-score is always defined), and the z-score map is
bounded by 255 in absolute value at every pixel — the exact-arithmetic
rendering of "the z-score map is finite everywhere (no NaN/Inf), because
the noise-scale denominator is floored at 1.0". -/
theorem c6_zmap_finite (gray background absRes : Pix → ℕ)
    (hg : ∀ p, gray p ≤ 255) (hb : ∀ p, background p ≤ 255) (p : Pix) :
    1 ≤ sigmaOf (absRes p) ∧ sigmaOf (absRes p) ≠ 0 ∧
      |zMap gray background absRes p| ≤ 255 := by
  have h1 : (1 : ℚ) ≤ sigmaOf (absRes p) := le_max_right _ _
  refine ⟨h1, by positivity, ?_⟩
  have hnum : |((gray p : ℚ) - (background p : ℚ))| ≤ 255 := by
    rw [abs_le]
    constructor
    · have : (background p : ℚ) ≤ 255 := by exact_mod_cast hb p
      have hg0 : (0 : ℚ) ≤ (gray p : ℚ) := by positivity
      linarith
    · have : (gray p : ℚ) ≤ 255 := by exact_mod_cast hg p
      have hb0 : (0 : ℚ) ≤ (background p : ℚ) := by positivity
      linarith
  have hσ : (0 : ℚ) < sigmaOf (absRes p) := lt_of_lt_of_le one_pos h1
  calc |zMap gray background absRes p|
      = |((gray p : ℚ) - (background p : ℚ))| / |sigmaOf (absRes p)| := by
        simp [zMap, zScore, abs_div]
    _ = |((gray p : ℚ) - (background p : ℚ))| / sigmaOf (absRes p) := by
        rw [abs_of_pos hσ]
    _ ≤ |((gray p : ℚ) - (background p : ℚ))| := by
        apply div_le_self (abs_nonneg _) h1
    _ ≤ 255 := hnum

/-- Witness for `c6_zmap_finite` at a concrete image. -/
theorem c6_zmap_finite_witness :
    1 ≤ sigmaOf ((fun _ : Pix => 7) (0, 0)) ∧
      sigmaOf ((fun _ : Pix => 7) (0, 0)) ≠ 0 ∧
      |zMap (fun _ => 200) (fun _ => 30) (fun _ => 7) (0, 0)| ≤ 255 :=
  c6_zmap_finite (fun _ => 200) (fun _ => 30) (fun _ => 7)
    (fun _ => by norm_num) (fun _ => by norm_num) (0, 0)

/-- C4: when halo suppression is enabled and the SNR threshold is
nonnegative, a pixel inside a halo disc is contained in the final mask
iff it lies in the SNR mask (the set of pixels whose z-score exceeds the
SNR threshold, spec §4.2 step 2) and its z-score exceeds twice the
threshold; in particular suppression never adds a halo pixel that the SNR
mask did not already contain.  `snrMask` ranges over every value the
cleaned mask variable can hold at line 137, `halo` over every halo mask. -/
theorem c4_halo_suppression (gray background absRes : Pix → ℕ)
    (snrMask halo : Pix → Bool) (thr : ℚ) (hthr : 0 ≤ thr)
    (p : Pix) (hp : halo p = true) :
    (suppressHaloStep snrMask halo gray background absRes thr p = true ↔
      (snrMaskRaw gray background absRes thr p = true ∧
        veryHighMask gray background absRes thr p = true)) ∧
    (suppressHaloStep snrMask halo gray background absRes thr p = true →
      snrMaskRaw gray background absRes thr p = true) := by
  have hstep : suppressHaloStep snrMask halo gray background absRes thr p =
      veryHighMask gray background absRes thr p := by
    simp [suppressHaloStep, hp]
  have himp : veryHighMask gray background absRes thr p = true →
      snrMaskRaw gray background absRes thr p = true := by
    intro hv
    simp only [veryHighMask, decide_eq_true_eq] at hv
    simp only [snrMaskRaw, decide_eq_true_eq]
    nlinarith
  constructor
  · rw [hstep]
    constructor
    · intro hv; exact ⟨himp hv, hv⟩
    · intro hv; exact hv.2
  · rw [hstep]; exact himp

/-- Witness for `c4_halo_suppression` at a concrete image and pixel. -/
theorem c4_halo_suppression_witness :
    ((suppressHaloStep (fun _ => false) (fun _ => true)
        (fun _ => 255) (fun _ => 0) (fun _ => 0) 4 (0, 0) = true ↔
      (snrMaskRaw (fun _ => 255) (fun _ => 0) (fun _ => 0) 4 (0, 0) = true ∧
        veryHighMask (fun _ => 255) (fun _ => 0) (fun _ => 0) 4 (0, 0) = true)) ∧
    (suppressHaloStep (fun _ => false) (fun _ => true)
        (fun _ => 255) (fun _ => 0) (fun _ => 0) 4 (0, 0) = true →
      snrMaskRaw (fun _ => 255) (fun _ => 0) (fun _ => 0) 4 (0, 0) = true)) :=
  c4_halo_suppression (fun _ => 255) (fun _ => 0) (fun _ => 0)
    (fun _ => false) (fun _ => true) 4 (by norm_num) (0, 0) rfl

/-- One detection row as assembled at line 156 of `starDetection.py`:
pixel center, pixel area, summed and mean intensity. -/
structure Row where
  centerX : ℚ
  centerY : ℚ
  area : ℕ
  sumIntensity : ℚ
  meanIntensity : ℚ
deriving DecidableEq

/-- Brightness score of lines 84-85: `scoreRow(r) = r['sumIntensity']`. -/
def scoreRow (r : Row) : ℚ := r.sumIntensity

/-- Squared center distance computed at lines 74-75:
`xDist * xDist + yDist * yDist`. -/
def rowDistSq (a b : Row) : ℚ :=
  (a.centerX - b.centerX) * (a.centerX - b.centerX) +
    (a.centerY - b.centerY) * (a.centerY - b.centerY)

/-- Descending-by-score order realising line 67,
`sorted(rows, key=scoreRow, reverse=True)`. -/
def rowGE (a b : Row) : Prop := scoreRow b ≤ scoreRow a

instance : DecidableRel rowGE := fun _ _ => inferInstanceAs (Decidable (_ ≤ _))

instance : IsTotal Row rowGE := ⟨fun a b => le_total (scoreRow b) (scoreRow a)⟩

instance : IsTrans Row rowGE := ⟨fun _ _ _ h1 h2 => le_trans h2 h1⟩

/-- Python's `sorted` is stable; `List.insertionSort rowGE` likewise keeps
equal-score rows in input order, so it models line 67 exactly. -/
def sortRowsDesc (rows : List Row) : List Row := List.insertionSort rowGE rows

/-- Greedy acceptance loop of lines 68-82: accept a row iff no
already-kept row lies strictly within `minSepSq` of it (squared-distance
comparison), and stop as soon as `len(kept) >= maxKeep` right after an
acceptance. -/
def keepLoop (minSepSq : ℚ) (maxKeep : ℕ) : List Row → List Row → List Row
  | [], kept => kept
  | r :: rest, kept =>
    if kept.all fun s => decide (minSepSq ≤ rowDistSq r s) then
      if maxKeep ≤ (kept ++ [r]).length then kept ++ [r]
      else keepLoop minSepSq maxKeep rest (kept ++ [r])
    else keepLoop minSepSq maxKeep rest kept

/-- `filterBySeparation` of lines 64-82. -/
def filterBySeparation (rows : List Row) (minSeparation : ℚ) (maxKeep : ℕ) :
    List Row :=
  if rows.isEmpty then []
  else keepLoop (minSeparation * minSeparation) maxKeep (sortRowsDesc rows) []

/-- Euclidean distance between two row centers. -/
noncomputable def rowDist (a b : Row) : ℝ := Real.sqrt ((rowDistSq a b : ℝ))

theorem rowDistSq_comm (a b : Row) : rowDistSq a b = rowDistSq b a := by
  unfold rowDistSq; ring

theorem rowDistSq_nonneg (a b : Row) : 0 ≤ rowDistSq a b :=
  add_nonneg (mul_self_nonneg _) (mul_self_nonneg _)

theorem keepLoop_pairwise (minSepSq : ℚ) (maxKeep : ℕ) :
    ∀ (l kept : List Row),
      kept.Pairwise (fun a b => minSepSq ≤ rowDistSq a b) →
      (keepLoop minSepSq maxKeep l kept).Pairwise
        (fun a b => minSepSq ≤ rowDistSq a b)
  | [], kept, h => h
  | r :: rest, kept, h => by
    rw [keepLoop]
    by_cases hall : kept.all fun s => decide (minSepSq ≤ rowDistSq r s)
    · have hsep : ∀ s ∈ kept, minSepSq ≤ rowDistSq s r := by
        intro s hs
        have := List.all_eq_true.mp hall s hs
        rw [rowDistSq_comm]
        exact of_decide_eq_true this
      have hpair : (kept ++ [r]).Pairwise (fun a b => minSepSq ≤ rowDistSq a b) := by
        rw [List.pairwise_append]
        exact ⟨h, List.pairwise_singleton _ _, fun a ha b hb => by
          rw [List.mem_singleton] at hb; subst hb; exact hsep a ha⟩
      rw [if_pos hall]
      by_cases hlen : maxKeep ≤ (kept ++ [r]).length
      · rw [if_pos hlen]; exact hpair
      · rw [if_neg hlen]; exact keepLoop_pairwise minSepSq maxKeep rest _ hpair
    · rw [if_neg hall]; exact keepLoop_pairwise minSepSq maxKeep rest kept h

theorem keepLoop_length (minSepSq : ℚ) (maxKeep : ℕ) :
    ∀ (l kept : List Row), kept.length < maxKeep ∨ kept = [] →
      (keepLoop minSepSq maxKeep l kept).length ≤ max maxKeep 1
  | [], kept, h => by
    rcases h with h | h
    · exact le_trans (le_of_lt h) (le_max_left _ _)
    · subst h; simp [keepLoop]
  | r :: rest, kept, h => by
    rw [keepLoop]
    by_cases hall : kept.all fun s => decide (minSepSq ≤ rowDistSq r s)
    · rw [if_pos hall]
      by_cases hlen : maxKeep ≤ (kept ++ [r]).length
      · rw [if_pos hlen]
        rcases h with h | h
        · simp only [List.length_append, List.length_singleton]
          exact le_trans (Nat.succ_le_of_lt h) (le_max_left _ _)
        · subst h; simp
      · rw [if_neg hlen]
        refine keepLoop_length minSepSq maxKeep rest _ (Or.inl ?_)
        exact lt_of_not_le hlen
    · rw [if_neg hall]; exact keepLoop_length minSepSq maxKeep rest kept h

theorem keepLoop_append_sublist (minSepSq : ℚ) (maxKeep : ℕ) :
    ∀ (l kept : List Row),
      ∃ s, s.Sublist l ∧ keepLoop minSepSq maxKeep l kept = kept ++ s
  | [], kept => ⟨[], List.Sublist.refl _, by simp [keepLoop]⟩
  | r :: rest, kept => by
    rw [keepLoop]
    by_cases hall : kept.all fun s => decide (minSepSq ≤ rowDistSq r s)
    · rw [if_pos hall]
      by_cases hlen : maxKeep ≤ (kept ++ [r]).length
      · rw [if_pos hlen]
        exact ⟨[r], (List.singleton_sublist.mpr (List.mem_cons_self _ _)), rfl⟩
      · rw [if_neg hlen]
        obtain ⟨s, hs, heq⟩ := keepLoop_append_sublist minSepSq maxKeep rest (kept ++ [r])
        exact ⟨r :: s, List.Sublist.cons₂ _ hs, by rw [heq]; simp⟩
    · rw [if_neg hall]
      obtain ⟨s, hs, heq⟩ := keepLoop_append_sublist minSepSq maxKeep rest kept
      exact ⟨s, List.Sublist.cons _ hs, heq⟩

theorem keepLoop_all_accept (minSepSq : ℚ) (maxKeep : ℕ) :
    ∀ (l kept : List Row),
      (kept ++ l).Pairwise (fun a b => minSepSq ≤ rowDistSq a b) →
      kept.length + l.length ≤ maxKeep →
      keepLoop minSepSq maxKeep l kept = kept ++ l
  | [], kept, _, _ => by simp [keepLoop]
  | r :: rest, kept, hpair, hlen => by
    have hsep : ∀ s ∈ kept, minSepSq ≤ rowDistSq r s := by
      intro s hs
      rw [List.pairwise_append] at hpair
      have := hpair.2.2 s hs r (List.mem_cons_self _ _)
      rw [rowDistSq_comm]; exact this
    have hall : kept.all fun s => decide (minSepSq ≤ rowDistSq r s) := by
      rw [List.all_eq_true]
      intro s hs
      exact decide_eq_true (hsep s hs)
    rw [keepLoop, if_pos hall]
    by_cases hstop : maxKeep ≤ (kept ++ [r]).length
    · rw [if_pos hstop]
      have hrest : rest = [] := by
        simp only [List.length_append, List.length_singleton] at hstop
        simp only [List.length_cons] at hlen
        have : rest.length = 0 := by omega
        exact List.eq_nil_of_length_eq_zero this
      subst hrest; simp
    · rw [if_neg hstop]
      have hpair' : ((kept ++ [r]) ++ rest).Pairwise
          (fun a b => minSepSq ≤ rowDistSq a b) := by
        rw [List.append_assoc]
        simpa using hpair
      have hlen' : (kept ++ [r]).length + rest.length ≤ maxKeep := by
        simp only [List.length_append, List.length_singleton]
        simp only [List.length_cons] at hlen
        omega
      rw [keepLoop_all_accept minSepSq maxKeep rest (kept ++ [r]) hpair' hlen']
      simp

theorem filterBySeparation_pairwise_sq (rows : List Row) (minSeparation : ℚ)
    (maxKeep : ℕ) :
    (filterBySeparation rows minSeparation maxKeep).Pairwise
      (fun a b => minSeparation * minSeparation ≤ rowDistSq a b) := by
  unfold filterBySeparation
  by_cases h : rows.isEmpty
  · rw [if_pos h]; exact List.Pairwise.nil
  · rw [if_neg h]
    exact keepLoop_pairwise _ _ _ [] List.Pairwise.nil

theorem filterBySeparation_sorted (rows : List Row) (minSeparation : ℚ)
    (maxKeep : ℕ) :
    (filterBySeparation rows minSeparation maxKeep).Sorted rowGE := by
  unfold filterBySeparation
  by_cases h : rows.isEmpty
  · rw [if_pos h]; exact List.Pairwise.nil
  · rw [if_neg h]
    obtain ⟨s, hs, heq⟩ :=
      keepLoop_append_sublist (minSeparation * minSeparation) maxKeep
        (sortRowsDesc rows) []
    rw [heq, List.nil_append]
    exact (List.sorted_insertionSort rowGE rows).sublist hs

theorem filterBySeparation_length (rows : List Row) (minSeparation : ℚ)
    (maxKeep : ℕ) :
    (filterBySeparation rows minSeparation maxKeep).length ≤ max maxKeep 1 := by
  unfold filterBySeparation
  by_cases h : rows.isEmpty
  · rw [if_pos h]; simp
  · rw [if_neg h]
    exact keepLoop_length _ _ _ [] (Or.inr rfl)

/-- C1 (amended): for nonnegative `minSeparation`, every pair of distinct
retained candidates is at Euclidean distance at least `minSeparation`, and
at most `max maxKeep 1` candidates are retained — i.e. at most `maxKeep`
whenever `maxKeep ≥ 1`, while `maxKeep = 0` still lets one candidate
through because line 80 checks the cap only after an acceptance. -/
theorem c1_separation_filter (rows : List Row) (minSeparation : ℚ) (maxKeep : ℕ)
    (hsep : 0 ≤ minSeparation) :
    (filterBySeparation rows minSeparation maxKeep).Pairwise
      (fun a b => ((minSeparation : ℚ) : ℝ) ≤ rowDist a b) ∧
    (filterBySeparation rows minSeparation maxKeep).length ≤ max maxKeep 1 := by
  constructor
  · refine (filterBySeparation_pairwise_sq rows minSeparation maxKeep).imp ?_
    intro a b hab
    have hcast : ((minSeparation : ℚ) : ℝ) * ((minSeparation : ℚ) : ℝ) ≤
        ((rowDistSq a b : ℚ) : ℝ) := by exact_mod_cast hab
    have hsep' : (0 : ℝ) ≤ ((minSeparation : ℚ) : ℝ) := by exact_mod_cast hsep
    rw [rowDist]
    rw [show ((minSeparation : ℚ) : ℝ) * ((minSeparation : ℚ) : ℝ) =
        ((minSeparation : ℚ) : ℝ) ^ 2 by ring] at hcast
    have hd : (0 : ℝ) ≤ ((rowDistSq a b : ℚ) : ℝ) := by
      exact_mod_cast rowDistSq_nonneg a b
    exact (Real.le_sqrt hsep' hd).mpr hcast
  · exact filterBySeparation_length rows minSeparation maxKeep

/-- Concrete rows used by counterexamples and witnesses. -/
def rowA : Row := ⟨0, 0, 1, 10, 10⟩

def rowB : Row := ⟨10, 0, 1, 5, 5⟩

/-- C1 as stated is false: with `maxCount = 0` the filter still retains
one candidate, because line 80 checks `len(kept) >= maxKeep` only after
appending. -/
theorem c1_counterexample : ¬((filterBySeparation [rowA] 0 0).length ≤ 0) := by
  decide

/-- Witness for `c1_separation_filter` at a concrete candidate list. -/
theorem c1_separation_filter_witness :
    (filterBySeparation [rowA, rowB] 3 5).Pairwise
      (fun a b => (((3 : ℚ) : ℚ) : ℝ) ≤ rowDist a b) ∧
    (filterBySeparation [rowA, rowB] 3 5).length ≤ max 5 1 :=
  c1_separation_filter [rowA, rowB] 3 5 (by norm_num)

/-- C7: the Separation Filter is idempotent: re-running it on its own
output with the same `minSeparation` and any cap at least the output's
length returns the output unchanged, same candidates in the same order. -/
theorem c7_separation_idempotent (rows : List Row) (minSeparation : ℚ)
    (maxKeep maxKeep' : ℕ)
    (h : (filterBySeparation rows minSeparation maxKeep).length ≤ maxKeep') :
    filterBySeparation (filterBySeparation rows minSeparation maxKeep)
        minSeparation maxKeep' =
      filterBySeparation rows minSeparation maxKeep := by
  set out := filterBySeparation rows minSeparation maxKeep with hout
  by_cases hempty : out.isEmpty
  · rw [filterBySeparation, if_pos hempty]
    exact (List.isEmpty_iff.mp hempty).symm
  · rw [filterBySeparation, if_neg hempty]
    have hsorted : out.Sorted rowGE := filterBySeparation_sorted rows _ _
    have hsort_eq : sortRowsDesc out = out := hsorted.insertionSort_eq
    rw [hsort_eq]
    have hpair : out.Pairwise
        (fun a b => minSeparation * minSeparation ≤ rowDistSq a b) :=
      filterBySeparation_pairwise_sq rows _ _
    have := keepLoop_all_accept (minSeparation * minSeparation) maxKeep' out []
      (by simpa using hpair) (by simpa using h)
    simpa using this

/-- Witness for `c7_separation_idempotent` at a concrete candidate list. -/
theorem c7_separation_idempotent_witness :
    filterBySeparation (filterBySeparation [rowA, rowB] 3 5) 3 5 =
      filterBySeparation [rowA, rowB] 3 5 :=
  c7_separation_idempotent [rowA, rowB] 3 5 5
    (le_trans (filterBySeparation_length [rowA, rowB] 3 5) (by norm_num))

/-- Squared point distance computed at line 169 of `starDetection.py`. -/
def distSqPt (p q : ℚ × ℚ) : ℚ :=
  (p.1 - q.1) * (p.1 - q.1) + (p.2 - q.2) * (p.2 - q.2)

/-- Inner scan of `matchPoints` (lines 165-171): walk the previous-frame
points with running index `i0`, skip indices already in `used`, and keep
the strictly closest point seen so far in `(best, bestd2)`. -/
def bmGo (p : ℚ × ℚ) (used : List ℕ) :
    List (ℚ × ℚ) → ℕ → Option ℕ → ℚ → Option ℕ
  | [], _, best, _ => best
  | q :: rest, i0, best, bestd2 =>
    if i0 ∈ used then bmGo p used rest (i0 + 1) best bestd2
    else if distSqPt p q < bestd2 then
      bmGo p used rest (i0 + 1) (some i0) (distSqPt p q)
    else bmGo p used rest (i0 + 1) best bestd2

/-- One step of the outer loop: `best, bestd2 = None, (maxDist + 1) ** 2`
(line 165) followed by the scan. -/
def bestMatch (p : ℚ × ℚ) (prevPts : List (ℚ × ℚ)) (used : List ℕ)
    (maxDist : ℚ) : Option ℕ :=
  bmGo p used prevPts 0 none ((maxDist + 1) * (maxDist + 1))

/-- Outer loop of `matchPoints`, lines 164-175. -/
def matchGo (prevPts : List (ℚ × ℚ)) (maxDist : ℚ) :
    List (ℚ × ℚ) → List ℕ → List (Option ℕ)
  | [], _ => []
  | p :: rest, used =>
    match bestMatch p prevPts used maxDist with
    | some i => some i :: matchGo prevPts maxDist rest (i :: used)
    | none => none :: matchGo prevPts maxDist rest used

/-- `matchPoints` of lines 161-175. -/
def matchPoints (prevPts newPts : List (ℚ × ℚ)) (maxDist : ℚ) :
    List (Option ℕ) :=
  matchGo prevPts maxDist newPts []

/-- The used-index set held just before the `j`-th current point is
processed (the contents of the Python `used` set at that iteration). -/
def matchUsed (prevPts : List (ℚ × ℚ)) (maxDist : ℚ) :
    List (ℚ × ℚ) → List ℕ → ℕ → List ℕ
  | _, used, 0 => used
  | [], used, _ + 1 => used
  | p :: rest, used, j + 1 =>
    match bestMatch p prevPts used maxDist with
    | some i => matchUsed prevPts maxDist rest (i :: used) j
    | none => matchUsed prevPts maxDist rest used j

/-- Used-index set before step `j` of a full `matchPoints` run. -/
def usedBefore (prevPts newPts : List (ℚ × ℚ)) (maxDist : ℚ) (j : ℕ) :
    List ℕ :=
  matchUsed prevPts maxDist newPts [] j

theorem bmGo_sub_shift {α : Type} (l : List α) (pts : List α) (i0 : ℕ) (q : α)
    (h : ∀ t, (q :: l)[t]? = pts[i0 + t]?) :
    ∀ t, l[t]? = pts[i0 + 1 + t]? := by
  intro t
  have := h (t + 1)
  simpa [Nat.add_assoc, Nat.add_comm 1 t] using this

theorem bmGo_mem_bound (p : ℚ × ℚ) (used : List ℕ) (prevPts : List (ℚ × ℚ))
    (B : ℚ) :
    ∀ (l : List (ℚ × ℚ)) (i0 : ℕ) (best : Option ℕ) (bd : ℚ),
      (∀ t, l[t]? = prevPts[i0 + t]?) →
      bd ≤ B →
      (∀ k, best = some k → ∃ q, prevPts[k]? = some q ∧ distSqPt p q < B) →
      ∀ k, bmGo p used l i0 best bd = some k →
        ∃ q, prevPts[k]? = some q ∧ distSqPt p q < B
  | [], _, _, _, _, _, hbest, k, hk => hbest k hk
  | q :: rest, i0, best, bd, hsub, hbd, hbest, k, hk => by
    rw [bmGo] at hk
    by_cases hu : i0 ∈ used
    · rw [if_pos hu] at hk
      exact bmGo_mem_bound p used prevPts B rest (i0 + 1) best bd
        (bmGo_sub_shift rest prevPts i0 q hsub) hbd hbest k hk
    · rw [if_neg hu] at hk
      by_cases hd : distSqPt p q < bd
      · rw [if_pos hd] at hk
        refine bmGo_mem_bound p used prevPts B rest (i0 + 1) (some i0)
          (distSqPt p q) (bmGo_sub_shift rest prevPts i0 q hsub)
          (le_of_lt (lt_of_lt_of_le hd hbd)) ?_ k hk
        intro k' hk'
        obtain rfl : i0 = k' := Option.some_injective _ hk'
        have h0 := hsub 0
        simp only [List.getElem?_cons_zero, Nat.add_zero] at h0
        exact ⟨q, h0.symm, lt_of_lt_of_le hd hbd⟩
      · rw [if_neg hd] at hk
        exact bmGo_mem_bound p used prevPts B rest (i0 + 1) best bd
          (bmGo_sub_shift rest prevPts i0 q hsub) hbd hbest k hk

theorem bmGo_none (p : ℚ × ℚ) (used : List ℕ) (prevPts : List (ℚ × ℚ))
    (bd : ℚ)
    (hfar : ∀ i q, prevPts[i]? = some q → i ∉ used → ¬ distSqPt p q < bd) :
    ∀ (l : List (ℚ × ℚ)) (i0 : ℕ),
      (∀ t, l[t]? = prevPts[i0 + t]?) →
      bmGo p used l i0 none bd = none
  | [], _, _ => rfl
  | q :: rest, i0, hsub => by
    rw [bmGo]
    by_cases hu : i0 ∈ used
    · rw [if_pos hu]
      exact bmGo_none p used prevPts bd hfar rest (i0 + 1)
        (bmGo_sub_shift rest prevPts i0 q hsub)
    · rw [if_neg hu]
      have h0 := hsub 0
      simp only [List.getElem?_cons_zero, Nat.add_zero] at h0
      have hd : ¬ distSqPt p q < bd := hfar i0 q h0.symm hu
      rw [if_neg hd]
      exact bmGo_none p used prevPts bd hfar rest (i0 + 1)
        (bmGo_sub_shift rest prevPts i0 q hsub)

theorem bestMatch_bound (p : ℚ × ℚ) (prevPts : List (ℚ × ℚ)) (used : List ℕ)
    (m : ℚ) (k : ℕ) (hk : bestMatch p prevPts used m = some k) :
    ∃ q, prevPts[k]? = some q ∧ distSqPt p q < (m + 1) * (m + 1) := by
  refine bmGo_mem_bound p used prevPts ((m + 1) * (m + 1)) prevPts 0 none
    ((m + 1) * (m + 1)) (fun t => by simp) le_rfl ?_ k hk
  intro k' hk'
  exact absurd hk' (by simp)

theorem matchGo_matched_dist (prevPts : List (ℚ × ℚ)) (m : ℚ) :
    ∀ (l : List (ℚ × ℚ)) (used : List ℕ) (j i : ℕ),
      (matchGo prevPts m l used)[j]? = some (some i) →
      ∃ p q, l[j]? = some p ∧ prevPts[i]? = some q ∧
        distSqPt p q < (m + 1) * (m + 1)
  | [], used, j, i, h => by simp [matchGo] at h
  | p :: rest, used, j, i, h => by
    rw [matchGo] at h
    cases hbm : bestMatch p prevPts used m with
    | some i' =>
      rw [hbm] at h
      cases j with
      | zero =>
        simp only [List.getElem?_cons_zero, Option.some_inj] at h
        obtain rfl : i' = i := h
        obtain ⟨q, hq, hd⟩ := bestMatch_bound p prevPts used m _ hbm
        exact ⟨p, q, by simp, hq, hd⟩
      | succ j' =>
        simp only [List.getElem?_cons_succ] at h
        obtain ⟨p', q, hp, hq, hd⟩ :=
          matchGo_matched_dist prevPts m rest (i' :: used) j' i h
        exact ⟨p', q, by simpa using hp, hq, hd⟩
    | none =>
      rw [hbm] at h
      cases j with
      | zero => simp at h
      | succ j' =>
        simp only [List.getElem?_cons_succ] at h
        obtain ⟨p', q, hp, hq, hd⟩ :=
          matchGo_matched_dist prevPts m rest used j' i h
        exact ⟨p', q, by simpa using hp, hq, hd⟩

theorem matchGo_unmatched (prevPts : List (ℚ × ℚ)) (m : ℚ) :
    ∀ (l : List (ℚ × ℚ)) (used : List ℕ) (j : ℕ) (p : ℚ × ℚ),
      l[j]? = some p →
      (∀ i q, prevPts[i]? = some q → i ∉ matchUsed prevPts m l used j →
        ¬ distSqPt p q < (m + 1) * (m + 1)) →
      (matchGo prevPts m l used)[j]? = some none
  | [], _, j, p, hp, _ => by simp at hp
  | p0 :: rest, used, 0, p, hp, hfar => by
    simp only [List.getElem?_cons_zero, Option.some_inj] at hp
    subst hp
    have hused : matchUsed prevPts m (p0 :: rest) used 0 = used := rfl
    rw [hused] at hfar
    have hnone : bestMatch p0 prevPts used m = none :=
      bmGo_none p0 used prevPts ((m + 1) * (m + 1)) hfar prevPts 0
        (fun t => by simp)
    rw [matchGo, hnone]
    simp
  | p0 :: rest, used, j + 1, p, hp, hfar => by
    simp only [List.getElem?_cons_succ] at hp
    rw [matchGo]
    cases hbm : bestMatch p0 prevPts used m with
    | some i =>
      have hused : matchUsed prevPts m (p0 :: rest) used (j + 1) =
          matchUsed prevPts m rest (i :: used) j := by
        rw [matchUsed, hbm]
      rw [hused] at hfar
      simpa using matchGo_unmatched prevPts m rest (i :: used) j p hp hfar
    | none =>
      have hused : matchUsed prevPts m (p0 :: rest) used (j + 1) =
          matchUsed prevPts m rest used j := by
        rw [matchUsed, hbm]
      rw [hused] at hfar
      simpa using matchGo_unmatched prevPts m rest used j p hp hfar

/-- C3 (amended): when the Identity Tracker assigns current point `j` to
previous point `i`, their squared distance is strictly below
`(maxDist + 1)^2` — i.e. the Euclidean distance is below `maxDist + 1`,
not `maxDist` as claimed; and a current point all of whose not-yet-used
previous points lie at squared distance at least `(maxDist + 1)^2` is
left unmatched. -/
theorem c3_tracker_amended (prevPts newPts : List (ℚ × ℚ)) (m : ℚ) (j : ℕ) :
    (∀ i, (matchPoints prevPts newPts m)[j]? = some (some i) →
      ∃ p q, newPts[j]? = some p ∧ prevPts[i]? = some q ∧
        distSqPt p q < (m + 1) * (m + 1)) ∧
    (∀ p, newPts[j]? = some p →
      (∀ i q, prevPts[i]? = some q → i ∉ usedBefore prevPts newPts m j →
        ¬ distSqPt p q < (m + 1) * (m + 1)) →
      (matchPoints prevPts newPts m)[j]? = some none) :=
  ⟨fun i h => matchGo_matched_dist prevPts m newPts [] j i h,
   fun p hp hfar => matchGo_unmatched prevPts m newPts [] j p hp hfar⟩

/-- C3 as stated is false: with `maxDist = 12`, the current point
`(12.5, 0)` is matched to the previous point `(0, 0)` although their
Euclidean distance `12.5` exceeds `maxDist`, because line 165
initialises the comparison bound to `(maxDist + 1)^2 = 169`. -/
theorem c3_counterexample :
    matchPoints [((0 : ℚ), (0 : ℚ))] [((25 / 2 : ℚ), (0 : ℚ))] 12 =
        [some 0] ∧
      ¬ distSqPt ((25 / 2 : ℚ), (0 : ℚ)) ((0 : ℚ), (0 : ℚ)) ≤ 12 * 12 := by
  constructor
  · show matchGo _ _ _ _ = _
    rw [matchGo]
    have hbm : bestMatch ((25 / 2 : ℚ), (0 : ℚ)) [((0 : ℚ), (0 : ℚ))] [] 12 =
        some 0 := by
      show bmGo _ _ _ _ _ _ = _
      rw [bmGo]
      rw [if_neg (by simp)]
      rw [if_pos (by norm_num [distSqPt])]
      rfl
    rw [hbm]
    rfl
  · norm_num [distSqPt]

/-- Witness for `c3_tracker_amended` at a concrete matched pair. -/
theorem c3_tracker_amended_witness :
    ∃ p q, [((5 : ℚ), (0 : ℚ))][0]? = some p ∧
      [((0 : ℚ), (0 : ℚ))][0]? = some q ∧
      distSqPt p q < ((12 : ℚ) + 1) * (12 + 1) := by
  refine (c3_tracker_amended [((0 : ℚ), (0 : ℚ))] [((5 : ℚ), (0 : ℚ))] 12 0).1
    0 ?_
  show (matchGo _ _ _ _)[0]? = _
  rw [matchGo]
  have hbm : bestMatch ((5 : ℚ), (0 : ℚ)) [((0 : ℚ), (0 : ℚ))] [] 12 =
      some 0 := by
    show bmGo _ _ _ _ _ _ = _
    rw [bmGo]
    rw [if_neg (by simp)]
    rw [if_pos (by norm_num [distSqPt])]
    rfl
  rw [hbm]
  rfl

theorem distSqPt_self (p : ℚ × ℚ) : distSqPt p p = 0 := by
  unfold distSqPt; ring

theorem distSqPt_nonneg (p q : ℚ × ℚ) : 0 ≤ distSqPt p q :=
  add_nonneg (mul_self_nonneg _) (mul_self_nonneg _)

theorem distSqPt_pos (p q : ℚ × ℚ) (h : p ≠ q) : 0 < distSqPt p q := by
  rcases lt_or_eq_of_le (distSqPt_nonneg p q) with hlt | heq
  · exact hlt
  · exfalso
    apply h
    have hsum : (p.1 - q.1) * (p.1 - q.1) + (p.2 - q.2) * (p.2 - q.2) = 0 := by
      unfold distSqPt at heq; linarith
    have h1 : (p.1 - q.1) * (p.1 - q.1) = 0 := by
      nlinarith [mul_self_nonneg (p.1 - q.1), mul_self_nonneg (p.2 - q.2)]
    have h2 : (p.2 - q.2) * (p.2 - q.2) = 0 := by
      nlinarith [mul_self_nonneg (p.1 - q.1), mul_self_nonneg (p.2 - q.2)]
    have e1 : p.1 = q.1 := by have := mul_self_eq_zero.mp h1; linarith
    have e2 : p.2 = q.2 := by have := mul_self_eq_zero.mp h2; linarith
    exact Prod.ext e1 e2

theorem bmGo_diag (pts : List (ℚ × ℚ)) (k : ℕ) (pk : ℚ × ℚ)
    (hpk : pts[k]? = some pk) (used : List ℕ)
    (hused : ∀ i, i ∈ used ↔ i < k)
    (hsep : ∀ i q, pts[i]? = some q → i ≠ k → 0 < distSqPt pk q) :
    ∀ (l : List (ℚ × ℚ)) (i0 : ℕ),
      (∀ t, l[t]? = pts[i0 + t]?) →
      ∀ (best : Option ℕ) (bd : ℚ),
      ((i0 ≤ k ∧ best = none ∧ 0 < bd) ∨
        (k < i0 ∧ best = some k ∧ bd = 0)) →
      bmGo pk used l i0 best bd = some k
  | [], i0, hsub, best, bd, hinv => by
    rcases hinv with ⟨hik, rfl, _⟩ | ⟨_, rfl, _⟩
    · exfalso
      have h0 := hsub 0
      simp only [Nat.add_zero] at h0
      have hnone : pts[i0]? = none := by simpa using h0.symm
      have hlen : pts.length ≤ i0 := List.getElem?_eq_none_iff.mp hnone
      have hk : pts[k]? = none := List.getElem?_eq_none (le_trans hlen hik)
      rw [hk] at hpk
      exact Option.noConfusion hpk
    · rfl
  | q :: rest, i0, hsub, best, bd, hinv => by
    have h0 : pts[i0]? = some q := by
      have := hsub 0
      simpa using this.symm
    rw [bmGo]
    rcases hinv with ⟨hik, rfl, hbd⟩ | ⟨hik, rfl, rfl⟩
    · rcases lt_or_eq_of_le hik with hlt | heq
      · rw [if_pos ((hused i0).mpr hlt)]
        exact bmGo_diag pts k pk hpk used hused hsep rest (i0 + 1)
          (bmGo_sub_shift rest pts i0 q hsub) none bd (Or.inl ⟨hlt, rfl, hbd⟩)
      · have hnotused : i0 ∉ used := fun hmem =>
          absurd ((hused i0).mp hmem) (by omega)
        rw [if_neg hnotused]
        have hq : q = pk := by
          rw [heq] at h0
          rw [h0] at hpk
          exact Option.some_inj.mp hpk
        have hzero : distSqPt pk q = 0 := by rw [hq, distSqPt_self]
        rw [if_pos (by rw [hzero]; exact hbd)]
        refine bmGo_diag pts k pk hpk used hused hsep rest (i0 + 1)
          (bmGo_sub_shift rest pts i0 q hsub) (some i0) (distSqPt pk q)
          (Or.inr ⟨by omega, by rw [heq], hzero⟩)
    · have hnotused : i0 ∉ used := fun hmem =>
        absurd ((hused i0).mp hmem) (by omega)
      rw [if_neg hnotused]
      have hpos := hsep i0 q h0 (by omega)
      rw [if_neg (by linarith)]
      exact bmGo_diag pts k pk hpk used hused hsep rest (i0 + 1)
        (bmGo_sub_shift rest pts i0 q hsub) (some k) 0
        (Or.inr ⟨by omega, rfl, rfl⟩)

theorem bestMatch_diag (pts : List (ℚ × ℚ)) (k : ℕ) (pk : ℚ × ℚ)
    (hpk : pts[k]? = some pk) (used : List ℕ)
    (hused : ∀ i, i ∈ used ↔ i < k)
    (hsep : ∀ i q, pts[i]? = some q → i ≠ k → 0 < distSqPt pk q)
    (m : ℚ) (hm : 0 < (m + 1) * (m + 1)) :
    bestMatch pk pts used m = some k :=
  bmGo_diag pts k pk hpk used hused hsep pts 0 (fun t => by simp) none
    ((m + 1) * (m + 1)) (Or.inl ⟨Nat.zero_le k, rfl, hm⟩)

theorem pairwiseNe_getElem? (pts : List (ℚ × ℚ))
    (hne : pts.Pairwise (fun a b => a ≠ b)) :
    ∀ (i j : ℕ) (pi pj : ℚ × ℚ),
      pts[i]? = some pi → pts[j]? = some pj → i ≠ j → pi ≠ pj := by
  intro i j pi pj hi hj hij
  obtain ⟨hi', rfl⟩ := List.getElem?_eq_some.mp hi
  obtain ⟨hj', rfl⟩ := List.getElem?_eq_some.mp hj
  rcases Nat.lt_or_ge i j with h | h
  · exact List.pairwise_iff_getElem.mp hne i j hi' hj' h
  · rcases Nat.lt_or_ge j i with h2 | h2
    · exact (List.pairwise_iff_getElem.mp hne j i hj' hi' h2).symm
    · exact absurd (by omega : i = j) hij

theorem matchGo_diag (pts : List (ℚ × ℚ)) (m : ℚ)
    (hm : 0 < (m + 1) * (m + 1))
    (hsep : ∀ (i j : ℕ) (pi pj : ℚ × ℚ),
      pts[i]? = some pi → pts[j]? = some pj → i ≠ j → pi ≠ pj) :
    ∀ (l : List (ℚ × ℚ)) (k : ℕ) (used : List ℕ),
      (∀ t, l[t]? = pts[k + t]?) →
      (∀ i, i ∈ used ↔ i < k) →
      matchGo pts m l used = (List.range' k l.length).map some
  | [], _, _, _, _ => by simp [matchGo]
  | q :: rest, k, used, hsub, hused => by
    have h0 : pts[k]? = some q := by
      have := hsub 0
      simpa using this.symm
    have hsepk : ∀ i qq, pts[i]? = some qq → i ≠ k → 0 < distSqPt q qq :=
      fun i qq hq hik =>
        distSqPt_pos _ _ (hsep k i q qq h0 hq (Ne.symm hik))
    have hbm : bestMatch q pts used m = some k :=
      bestMatch_diag pts k q h0 used hused hsepk m hm
    rw [matchGo, hbm, List.length_cons, List.range'_succ, List.map_cons]
    exact congrArg (fun t => some k :: t)
      (matchGo_diag pts m hm hsep rest (k + 1) (k :: used)
        (bmGo_sub_shift rest pts k q hsub)
        (fun i => by
          simp only [List.mem_cons, hused]
          omega))

theorem matchPoints_diag (pts : List (ℚ × ℚ)) (m : ℚ)
    (hm : 0 < (m + 1) * (m + 1))
    (hne : pts.Pairwise (fun a b => a ≠ b)) :
    matchPoints pts pts m = (List.range pts.length).map some := by
  rw [matchPoints, List.range_eq_range' pts.length]
  exact matchGo_diag pts m hm (pairwiseNe_getElem? pts hne) pts 0 []
    (fun t => by simp) (fun i => by simp)

/-- Previous-frame metadata entry kept by the session (lines 490-493 and
559 of `starDetection.py`): identity label, display name, and the custom
flag `name != id`. -/
structure PrevMeta where
  id : String
  name : String
  custom : Bool
deriving DecidableEq

/-- The `i`-th (0-based) label produced by `labelsForN` (lines 34-44):
letter `chr(65 + i % 26)` with cycle number `i / 26 + 1`, giving the
sequence `A1..Z1, A2..Z2, …`. -/
def labelString (i : ℕ) : String :=
  (Char.ofNat (65 + i % 26)).toString ++ toString (i / 26 + 1)

/-- `labelsForN n`: the first `n` fresh identity labels in order. -/
def labelsForN (n : ℕ) : List String := (List.range n).map labelString

/-- Lines 540-545: the name a matched candidate may inherit — present
only when the match index is valid and the previous entry was
custom-named (`wasCustom`). -/
def carriedOne (prevMeta : List PrevMeta) (oi : Option ℕ) : Option String :=
  match oi with
  | some i =>
    match prevMeta[i]? with
    | some e => if e.custom then some e.name else none
    | none => none
  | none => none

/-- The `carriedNames` array of lines 539-545. -/
def carriedOf (prevMeta : List PrevMeta) (mapping : List (Option ℕ)) :
    List (Option String) :=
  mapping.map (carriedOne prevMeta)

/-- Line 552: `name = carriedNames[j] if carriedNames[j] else newID`;
both `None` and the empty string are falsy in Python. -/
def resolveName (carried : Option String) (fresh : String) : String :=
  match carried with
  | some s => if s = "" then fresh else s
  | none => fresh

/-- Lines 547-556: each candidate paired with its fresh id and resolved
name; in `updateView`, `len(mapping) = len(rows)`. -/
def nameRows (prevMeta : List PrevMeta) (mapping : List (Option ℕ)) :
    List (String × String) :=
  List.zipWith (fun fresh c => (fresh, resolveName c fresh))
    (labelsForN mapping.length) (carriedOf prevMeta mapping)

/-- The identity/naming step of `App.updateView` (lines 536-556), with
`maxDist` fixed at `12.0` as at line 537. -/
def assignIdsNames (prevPts : List (ℚ × ℚ)) (prevMeta : List PrevMeta)
    (pts : List (ℚ × ℚ)) : List (String × String) :=
  nameRows prevMeta (matchPoints prevPts pts 12)

theorem labelsForN_getElem? (n j : ℕ) (hj : j < n) :
    (labelsForN n)[j]? = some (labelString j) := by
  simp [labelsForN, List.getElem?_map, List.getElem?_range hj]

theorem nameRows_getElem? (prevMeta : List PrevMeta)
    (mapping : List (Option ℕ)) (j : ℕ) (oi : Option ℕ)
    (hj : mapping[j]? = some oi) :
    (nameRows prevMeta mapping)[j]? =
      some (labelString j,
        resolveName (carriedOne prevMeta oi) (labelString j)) := by
  have hjlen : j < mapping.length := by
    by_contra hc
    push_neg at hc
    rw [List.getElem?_eq_none hc] at hj
    exact Option.noConfusion hj
  rw [nameRows, List.getElem?_zipWith,
    labelsForN_getElem? mapping.length j hjlen, carriedOf,
    List.getElem?_map, hj]
  rfl

/-- C10: a matched candidate whose previous custom name is the empty
string does not inherit it — the name falls back to the freshly generated
identity label — and in general every resolved name is either the fresh
label or a non-empty custom name taken from the matched previous entry. -/
theorem c10_empty_name_not_carried (prevMeta : List PrevMeta)
    (mapping : List (Option ℕ)) (j : ℕ) :
    (∀ (i : ℕ) (e : PrevMeta), mapping[j]? = some (some i) →
      prevMeta[i]? = some e → e.custom = true → e.name = "" →
      (nameRows prevMeta mapping)[j]? =
        some (labelString j, labelString j)) ∧
    (∀ pr : String × String, (nameRows prevMeta mapping)[j]? = some pr →
      pr.2 = pr.1 ∨ (pr.2 ≠ "" ∧ ∃ (i : ℕ) (e : PrevMeta),
        mapping[j]? = some (some i) ∧ prevMeta[i]? = some e ∧
        e.custom = true ∧ pr.2 = e.name)) := by
  constructor
  · intro i e hm he hc hn
    rw [nameRows_getElem? prevMeta mapping j (some i) hm]
    simp [carriedOne, he, hc, hn, resolveName]
  · intro pr hpr
    have hlen_nr : (nameRows prevMeta mapping).length = mapping.length := by
      simp [nameRows, List.length_zipWith, labelsForN, carriedOf]
    have hjlen : j < mapping.length := by
      by_contra hc
      push_neg at hc
      rw [List.getElem?_eq_none (le_trans (le_of_eq hlen_nr) hc)] at hpr
      exact Option.noConfusion hpr
    obtain ⟨oi, hoi⟩ : ∃ oi, mapping[j]? = some oi :=
      ⟨mapping[j], List.getElem?_eq_some.mpr ⟨hjlen, rfl⟩⟩
    rw [nameRows_getElem? prevMeta mapping j oi hoi] at hpr
    obtain rfl :
        pr = (labelString j,
          resolveName (carriedOne prevMeta oi) (labelString j)) :=
      (Option.some_inj.mp hpr).symm
    cases hco : carriedOne prevMeta oi with
    | none => left; simp [resolveName, hco]
    | some s =>
      by_cases hs : s = ""
      · left; simp [resolveName, hco, hs]
      · right
        constructor
        · simp [resolveName, hco, hs]
        · cases oi with
          | none => simp [carriedOne] at hco
          | some i =>
            cases he : prevMeta[i]? with
            | none =>
              simp only [carriedOne, he] at hco
              exact Option.noConfusion hco
            | some e =>
              simp only [carriedOne, he] at hco
              by_cases hcust : e.custom = true
              · rw [if_pos hcust] at hco
                obtain rfl : e.name = s := Option.some_inj.mp hco
                exact ⟨i, e, hoi, he, hcust, by simp [resolveName, hs]⟩
              · rw [if_neg hcust] at hco
                exact Option.noConfusion hco

/-- Witness for `c10_empty_name_not_carried` at a concrete mapping. -/
theorem c10_empty_name_not_carried_witness :
    (nameRows [⟨"A1", "", true⟩] [some 0])[0]? =
      some (labelString 0, labelString 0) :=
  (c10_empty_name_not_carried [⟨"A1", "", true⟩] [some 0] 0).1 0
    ⟨"A1", "", true⟩ rfl rfl rfl rfl

/-- C8 (amended): with identical, pairwise-distinct previous and current
point lists, the Identity Tracker matches every current index `j` to
previous index `j` (a zero-distance match), and a previously
custom-assigned name is carried onto the candidate at the same index
whenever it is non-empty; an empty custom name is replaced by the fresh
identity label (see the counterexample). -/
theorem c8_identical_frames (pts : List (ℚ × ℚ)) (prevMeta : List PrevMeta)
    (hne : pts.Pairwise (fun a b => a ≠ b)) (j : ℕ) (hj : j < pts.length) :
    (matchPoints pts pts 12)[j]? = some (some j) ∧
    (∀ p, pts[j]? = some p → distSqPt p p = 0) ∧
    (∀ e : PrevMeta, prevMeta[j]? = some e → e.custom = true →
      e.name ≠ "" →
      (assignIdsNames pts prevMeta pts)[j]? =
        some (labelString j, e.name)) := by
  have hdiag := matchPoints_diag pts 12 (by norm_num) hne
  have hmapj : (matchPoints pts pts 12)[j]? = some (some j) := by
    rw [hdiag, List.getElem?_map, List.getElem?_range hj]
    rfl
  refine ⟨hmapj, fun p _ => distSqPt_self p, ?_⟩
  intro e he hc hn
  rw [assignIdsNames,
    nameRows_getElem? prevMeta (matchPoints pts pts 12) j (some j) hmapj]
  simp [carriedOne, he, hc, resolveName, hn]

/-- C8 as stated is false: a previous candidate custom-renamed to the
empty string (custom because `"" != "A1"`) keeps nothing — the matched
current candidate is named by its fresh label `A1`, not by the carried
empty name, because line 552 treats the empty string as falsy. -/
theorem c8_counterexample :
    (assignIdsNames [((0 : ℚ), (0 : ℚ))] [⟨"A1", "", true⟩]
        [((0 : ℚ), (0 : ℚ))]).map Prod.snd = ["A1"] ∧
      ("A1" : String) ≠ "" := by
  constructor
  · have hdiag := matchPoints_diag [((0 : ℚ), (0 : ℚ))] 12 (by norm_num)
      (List.pairwise_singleton _ _)
    rw [assignIdsNames, hdiag]
    rfl
  · decide

/-- Witness for `c8_identical_frames` at a concrete frame pair. -/
theorem c8_identical_frames_witness :
    (matchPoints [((0 : ℚ), (0 : ℚ)), ((1 : ℚ), (0 : ℚ))]
        [((0 : ℚ), (0 : ℚ)), ((1 : ℚ), (0 : ℚ))] 12)[0]? = some (some 0) ∧
    (∀ p, [((0 : ℚ), (0 : ℚ)), ((1 : ℚ), (0 : ℚ))][0]? = some p →
      distSqPt p p = 0) ∧
    (∀ e : PrevMeta,
      [(⟨"A1", "Vega", true⟩ : PrevMeta), ⟨"B1", "B1", false⟩][0]? = some e →
      e.custom = true → e.name ≠ "" →
      (assignIdsNames [((0 : ℚ), (0 : ℚ)), ((1 : ℚ), (0 : ℚ))]
          [⟨"A1", "Vega", true⟩, ⟨"B1", "B1", false⟩]
          [((0 : ℚ), (0 : ℚ)), ((1 : ℚ), (0 : ℚ))])[0]? =
        some (labelString 0, e.name)) :=
  c8_identical_frames [((0 : ℚ), (0 : ℚ)), ((1 : ℚ), (0 : ℚ))]
    [⟨"A1", "Vega", true⟩, ⟨"B1", "B1", false⟩]
    (by norm_num [List.pairwise_cons, Prod.ext_iff]) 0 (by norm_num)

/-- `ProjectionMeta` of lines 195-210 of `starDetection.py`: disc
geometry and orientation as reals, optional observer context as
`Option ℝ`. -/
structure ProjectionMeta where
  width : ℕ
  height : ℕ
  centerX : ℝ
  centerY : ℝ
  radius : ℝ
  rightAscensionNaught : ℝ
  declinationNaught : ℝ
  positionAngle : ℝ
  greenwichSiderealTime : Option ℝ
  observerLatitude : Option ℝ
  observerLongitude : Option ℝ

/-- `math.radians`. -/
noncomputable def radians (d : ℝ) : ℝ := d * Real.pi / 180

/-- `math.degrees`. -/
noncomputable def degrees (r : ℝ) : ℝ := r * 180 / Real.pi

/-- The clamp `max(-1.0, min(1.0, x))` applied before `asin`
(lines 233 and 242). -/
noncomputable def clamp1 (x : ℝ) : ℝ := max (-1) (min 1 x)

/-- `math.atan2 y x` with Python's sign conventions. -/
noncomputable def atan2 (y x : ℝ) : ℝ :=
  if 0 < x then Real.arctan (y / x)
  else if x < 0 then
    (if 0 ≤ y then Real.arctan (y / x) + Real.pi
      else Real.arctan (y / x) - Real.pi)
  else
    (if 0 < y then Real.pi / 2 else if y < 0 then -(Real.pi / 2) else 0)

/-- `inverseStereoToXYZ` of lines 179-182. -/
noncomputable def inverseStereoToXYZ (normX normY : ℝ) : ℝ × ℝ × ℝ :=
  let radiusSquared := normX * normX + normY * normY
  let denom := 1 + radiusSquared
  (2 * normX / denom, 2 * normY / denom, (1 - radiusSquared) / denom)

/-- `imageXYtoEquatorial` of lines 213-234. -/
noncomputable def imageXYtoEquatorial (meta : ProjectionMeta)
    (xPix yPix : ℝ) : ℝ × ℝ :=
  let u := (xPix - meta.centerX) / meta.radius
  let v := (meta.centerY - yPix) / meta.radius
  let xyz := inverseStereoToXYZ u v
  let x := xyz.1
  let y := xyz.2.1
  let z := xyz.2.2
  let positionAngle := -(radians meta.positionAngle)
  let xRadius := x * Real.cos positionAngle - y * Real.sin positionAngle
  let yRadius := x * Real.sin positionAngle + y * Real.cos positionAngle
  let zRadius := z
  let declinationNaught := radians meta.declinationNaught
  let cosTilt := Real.cos (Real.pi / 2 - declinationNaught)
  let sinTilt := Real.sin (Real.pi / 2 - declinationNaught)
  let rotatedX := xRadius
  let rotatedY := yRadius * cosTilt - zRadius * sinTilt
  let rotatedZ := yRadius * sinTilt + zRadius * cosTilt
  let rightAscensionNaught := radians meta.rightAscensionNaught
  let outX := rotatedX * Real.cos rightAscensionNaught -
    rotatedY * Real.sin rightAscensionNaught
  let outY := rotatedX * Real.sin rightAscensionNaught +
    rotatedY * Real.cos rightAscensionNaught
  let outZ := rotatedZ
  let rightAscension := degrees (atan2 outY outX)
  let rightAscension' :=
    if rightAscension < 0 then rightAscension + 360 else rightAscension
  (rightAscension', degrees (Real.arcsin (clamp1 outZ)))

/-- Python's float `%` with a positive modulus (lines 238, 687, 702):
`x % m = x - m * floor(x / m)`. -/
noncomputable def pymod (x m : ℝ) : ℝ := x - m * (⌊x / m⌋ : ℤ)

/-- `equatorialToHorizontal` of lines 237-246 (the `longitude` parameter
is accepted but unused, as in the source). -/
noncomputable def equatorialToHorizontal (rightAscension declination
    latitude longitude localSiderealTime : ℝ) : ℝ × ℝ :=
  let hourAngle := radians (pymod (localSiderealTime - rightAscension) 360)
  let dec := radians declination
  let lat := radians latitude
  let sinAltitude := Real.sin dec * Real.sin lat +
    Real.cos dec * Real.cos lat * Real.cos hourAngle
  let altitude := degrees (Real.arcsin (clamp1 sinAltitude))
  let y := -(Real.sin hourAngle) * Real.cos dec
  let x := Real.sin dec * Real.cos lat -
    Real.cos dec * Real.sin lat * Real.cos hourAngle
  let azimuth := pymod (degrees (atan2 y x) + 360) 360
  (azimuth, altitude)

theorem imageXY_snd_simple (meta : ProjectionMeta)
    (hpa : meta.positionAngle = 0) (hdec : meta.declinationNaught = 90)
    (hra : meta.rightAscensionNaught = 0) (x y : ℝ) :
    (imageXYtoEquatorial meta x y).2 =
      degrees (Real.arcsin (clamp1
        ((1 - (((x - meta.centerX) / meta.radius) *
            ((x - meta.centerX) / meta.radius) +
          ((meta.centerY - y) / meta.radius) *
            ((meta.centerY - y) / meta.radius))) /
         (1 + (((x - meta.centerX) / meta.radius) *
            ((x - meta.centerX) / meta.radius) +
          ((meta.centerY - y) / meta.radius) *
            ((meta.centerY - y) / meta.radius)))))) := by
  have hrad0 : radians 0 = 0 := by simp [radians]
  have hrad90 : Real.pi / 2 - radians 90 = 0 := by rw [radians]; ring
  simp only [imageXYtoEquatorial, inverseStereoToXYZ, hpa, hdec, hra,
    hrad0, hrad90, neg_zero, Real.cos_zero, Real.sin_zero, mul_zero,
    mul_one, zero_mul, add_zero, zero_add, sub_zero]

theorem degrees_pi_div_two : degrees (Real.pi / 2) = 90 := by
  rw [degrees]
  field_simp
  ring

/-- C5: with `positionAngle = 0`, `declinationNaught = 90`,
`rightAscensionNaught = 0` and positive radius, the disc-center pixel
maps to declination 90° within 1e-6 and every pixel at Euclidean
distance exactly `radius` from the center maps to declination 0° within
1e-6, regardless of direction; in the exact real-number embedding both
errors are zero. -/
theorem c5_projection_center_edge (meta : ProjectionMeta) (x y : ℝ)
    (hpa : meta.positionAngle = 0) (hdec : meta.declinationNaught = 90)
    (hra : meta.rightAscensionNaught = 0) (hr : 0 < meta.radius) :
    |(imageXYtoEquatorial meta meta.centerX meta.centerY).2 - 90| ≤
        1 / 1000000 ∧
    ((x - meta.centerX) ^ 2 + (y - meta.centerY) ^ 2 = meta.radius ^ 2 →
      |(imageXYtoEquatorial meta x y).2 - 0| ≤ 1 / 1000000) := by
  constructor
  · rw [imageXY_snd_simple meta hpa hdec hra]
    have h0 : (meta.centerX - meta.centerX) / meta.radius = 0 := by simp
    have h0' : (meta.centerY - meta.centerY) / meta.radius = 0 := by simp
    rw [h0, h0']
    have harg : (1 - ((0 : ℝ) * 0 + 0 * 0)) / (1 + ((0 : ℝ) * 0 + 0 * 0)) =
        1 := by norm_num
    rw [harg]
    have hc : clamp1 1 = 1 := by rw [clamp1]; norm_num
    rw [hc, Real.arcsin_one, degrees_pi_div_two]
    norm_num
  · intro hedge
    rw [imageXY_snd_simple meta hpa hdec hra]
    have hrne : meta.radius ≠ 0 := ne_of_gt hr
    have hrs : ((x - meta.centerX) / meta.radius) *
          ((x - meta.centerX) / meta.radius) +
        ((meta.centerY - y) / meta.radius) *
          ((meta.centerY - y) / meta.radius) = 1 := by
      field_simp
      nlinarith [hedge]
    rw [hrs]
    have harg : ((1 : ℝ) - 1) / (1 + 1) = 0 := by norm_num
    rw [harg]
    have hc : clamp1 0 = 0 := by rw [clamp1]; norm_num
    rw [hc, Real.arcsin_zero]
    have hd0 : degrees 0 = 0 := by rw [degrees]; ring
    rw [hd0]
    norm_num

/-- Concrete meta for the projection witness: unit disc at the origin,
zero rotation. -/
noncomputable def metaC5 : ProjectionMeta :=
  ⟨100, 100, 0, 0, 1, 0, 90, 0, none, none, none⟩

/-- Witness for `c5_projection_center_edge` on the unit disc, edge pixel
`(1, 0)`. -/
theorem c5_projection_center_edge_witness :
    |(imageXYtoEquatorial metaC5 metaC5.centerX metaC5.centerY).2 - 90| ≤
        1 / 1000000 ∧
    |(imageXYtoEquatorial metaC5 1 0).2 - 0| ≤ 1 / 1000000 :=
  ⟨(c5_projection_center_edge metaC5 1 0 rfl rfl rfl (by norm_num [metaC5])).1,
   (c5_projection_center_edge metaC5 1 0 rfl rfl rfl (by norm_num [metaC5])).2
     (by norm_num [metaC5])⟩

/-- One labeled output candidate as exported (id, name, pixel center). -/
structure OutRow where
  id : String
  name : String
  centerX : ℚ
  centerY : ℚ

/-- Lines 692-704 of `App.onExportTxt`: decide whether the horizontal
export proceeds and with which local sidereal time.  `none` is the
missing-observer-data condition (warning dialog and `return`, nothing
written).  When the sidereal field is set, `lst = (gst +
(observerLongitude or 0.0)) % 360`; when it is absent but a longitude is
present, the code reaches line 704 and silently uses `lst = 0.0`. -/
noncomputable def horizontalLST (meta : ProjectionMeta) : Option ℝ :=
  match meta.observerLatitude with
  | none => none
  | some _ =>
    match meta.greenwichSiderealTime, meta.observerLongitude with
    | none, none => none
    | some g, lon => some (pymod (g + lon.getD 0) 360)
    | none, some _ => some 0

/-- One exported horizontal catalog row (line 713). -/
structure HorizRow where
  id : String
  name : String
  xpix : ℚ
  ypix : ℚ
  az : ℝ
  alt : ℝ

/-- Horizontal-mode export of lines 690-713: aborts with no rows exactly
when `horizontalLST` reports missing observer data, otherwise converts
every candidate (line 711 passes `meta.observerLongitude or 0.0`). -/
noncomputable def horizontalExport (meta : ProjectionMeta)
    (rows : List OutRow) : Option (List HorizRow) :=
  match horizontalLST meta with
  | none => none
  | some lst =>
    some (rows.map fun r =>
      let eq := imageXYtoEquatorial meta (r.centerX : ℝ) (r.centerY : ℝ)
      let h := equatorialToHorizontal eq.1 eq.2
        (meta.observerLatitude.getD 0) (meta.observerLongitude.getD 0) lst
      ⟨r.id, r.name, r.centerX, r.centerY, h.1, h.2⟩)

/-- One exported equatorial catalog row (lines 684-689); `gha` is filled
exactly when GHA is requested and a sidereal time is set (line 686). -/
structure EqRow where
  id : String
  name : String
  xpix : ℚ
  ypix : ℚ
  ra : ℝ
  dec : ℝ
  gha : Option ℝ

/-- Equatorial-mode export of lines 681-689: unconditional, one row per
candidate, never consulting the observer latitude or longitude. -/
noncomputable def equatorialExport (meta : ProjectionMeta)
    (includeGHA : Bool) (rows : List OutRow) : List EqRow :=
  rows.map fun r =>
    let eq := imageXYtoEquatorial meta (r.centerX : ℝ) (r.centerY : ℝ)
    let gha := match includeGHA, meta.greenwichSiderealTime with
      | true, some g => some (pymod (g - eq.1) 360)
      | _, _ => none
    ⟨r.id, r.name, r.centerX, r.centerY, eq.1, eq.2, gha⟩

/-- C2 (amended): the horizontal export fails with the
missing-observer-data condition, writing no rows, exactly when the
observer latitude is absent or when the sidereal-time field and the
observer longitude are both absent; and the equatorial mode always
produces one row per candidate, unaffected by any of those fields.
Contrary to the claim, a missing sidereal field with a present longitude
does not fail: line 704 silently defaults LST to 0. -/
theorem c2_horizontal_error_amended (meta : ProjectionMeta)
    (rows : List OutRow) (includeGHA : Bool) :
    (horizontalExport meta rows = none ↔
      (meta.observerLatitude = none ∨
        (meta.greenwichSiderealTime = none ∧
          meta.observerLongitude = none))) ∧
    (equatorialExport meta includeGHA rows).length = rows.length := by
  constructor
  · cases hlat : meta.observerLatitude with
    | none => simp [horizontalExport, horizontalLST, hlat]
    | some lat =>
      cases hgst : meta.greenwichSiderealTime with
      | some g => simp [horizontalExport, horizontalLST, hlat, hgst]
      | none =>
        cases hlon : meta.observerLongitude with
        | none => simp [horizontalExport, horizontalLST, hlat, hgst, hlon]
        | some lon => simp [horizontalExport, horizontalLST, hlat, hgst, hlon]
  · simp [equatorialExport]

/-- Meta with latitude present, sidereal field absent, longitude
present — the configuration where claim and code disagree. -/
noncomputable def metaC2 : ProjectionMeta :=
  ⟨100, 100, 50, 50, 50, 0, 90, 0, none, some 0, some 10⟩

/-- C2 as stated is false: here neither GST-with-longitude nor a direct
LST is available (the sidereal field is `None`), so the claim demands the
missing-observer-data failure, but the code proceeds (line 704, silent
`lst = 0.0`) and the horizontal export returns rows. -/
theorem c2_counterexample : horizontalExport metaC2 [] ≠ none := by
  simp [horizontalExport, horizontalLST, metaC2]

/-- Header fields of the equatorial catalog, line 681: `gha_deg` is
appended whenever GHA output is requested. -/
def equatorialHeaderFields (includeGHA : Bool) : List String :=
  ["id", "name", "xpix", "ypix", "ra_deg", "dec_deg"] ++
    (if includeGHA then ["gha_deg"] else [])

/-- Data-row fields of the equatorial catalog, lines 685-688: the GHA
field is appended only when GHA is requested AND the sidereal-time field
is present (`includeGHA and meta.greenwichSiderealTime is not None`). -/
def equatorialRowFields (includeGHA gstPresent : Bool)
    (idv namev fx fy fra fdec fgha : String) : List String :=
  [idv, namev, fx, fy, fra, fdec] ++
    (if includeGHA && gstPresent then [fgha] else [])

/-- Header fields of the horizontal catalog, line 706. -/
def horizontalHeaderFields : List String :=
  ["id", "name", "xpix", "ypix", "az_deg", "alt_deg"]

/-- C9 (code bug): with GHA requested but no sidereal time set, the
header announces 7 tab-separated columns (`gha_deg` included, line 681
checks `includeGHA` alone) while every data row emits only 6 (line 686
additionally checks `greenwichSiderealTime is not None`), so rows do not
match the header; the horizontal header has its six claimed columns. -/
theorem c9_gha_column_mismatch :
    (equatorialHeaderFields true).length = 7 ∧
    (equatorialRowFields true false "A1" "" "1.000" "2.000" "3.000000"
      "4.000000" "0.000000").length = 6 ∧
    horizontalHeaderFields.length = 6 ∧
    equatorialHeaderFields true ≠
      ["id", "name", "xpix", "ypix", "ra_deg", "dec_deg"] := by
  refine ⟨rfl, rfl, rfl, ?_⟩
  decide

end StarDetection
